import Mathlib

set_option maxRecDepth 10000

/-
Verification of the shard-streaming pipeline in src/upload/hf.py.

The embedding models the pure control flow of the module:
a Python string is a list of characters, a remote shard is a record of
its row contents together with the outcome of the external collaborators
(metadata fetch, background download, synchronous download, parquet
deserialization), and the generator of read_dataset_stream is the list of
records it yields.  Effects (printing, the HF API) are irrelevant to the
values computed and are dropped.
-/

namespace HfStream

/-- Configuration of one remote parquet shard, as seen by hf.py: its record
contents (in file order) and the outcome of each external call that the
pipeline can make for it.  metaOk is whether reading the parquet footer in
find_start_file succeeds, prefetchOk whether the background download of
_download_worker succeeds, syncOk whether the synchronous download_file
succeeds, parseOk whether pd.read_parquet succeeds. -/
structure ShardCfg (ρ : Type) where
  rows : List ρ
  metaOk : Bool
  prefetchOk : Bool
  syncOk : Bool
  parseOk : Bool
deriving DecidableEq

variable {ρ : Type}

/-- Total number of rows across all shards. -/
def sumRows (l : List (ShardCfg ρ)) : Nat :=
  (l.map (fun s => s.rows.length)).sum

/-- All records of the dataset in shard order, each shard in file order. -/
def allRecords (l : List (ShardCfg ρ)) : List ρ :=
  (l.map (fun s => s.rows)).flatten

/-- A shard sequence on which no external call fails. -/
def NoErrors (l : List (ShardCfg ρ)) : Prop :=
  ∀ s ∈ l, s.metaOk = true ∧ s.prefetchOk = true ∧ s.syncOk = true ∧ s.parseOk = true

instance (l : List (ShardCfg ρ)) : Decidable (NoErrors l) := by
  unfold NoErrors; infer_instance

/-- Loop of find_start_file (hf.py lines 96-122): scan the shards in order
keeping the running index i and the cumulative row total t.  A shard whose
footer read fails is skipped (the except branch does continue): it advances
the index but contributes nothing to the total.  A readable shard either
moves the total forward (when t + num_rows is at most skip_to) or is the
answer (i, t).  Exhausting the list gives the fallback (0, 0). -/
def findStartAux (skip_to : Nat) : List (ShardCfg ρ) → Nat → Nat → Nat × Nat
  | [], _, _ => (0, 0)
  | s :: rest, i, t =>
    if s.metaOk then
      if t + s.rows.length ≤ skip_to then
        findStartAux skip_to rest (i + 1) (t + s.rows.length)
      else
        (i, t)
    else
      findStartAux skip_to rest (i + 1) t

/-- find_start_file (hf.py lines 87-122). -/
def find_start_file (shards : List (ShardCfg ρ)) (skip_to : Nat) : Nat × Nat :=
  findStartAux skip_to shards 0 0

/-- Row loop of read_dataset_stream (hf.py lines 168-176): increment
current_global_idx once per record; a record whose cursor value is at most
skip_to is suppressed, any other record is yielded.  The argument c is the
value of current_global_idx before the loop. -/
def emitRows (skip_to : Nat) : List ρ → Nat → List ρ
  | [], _ => []
  | r :: rs, c =>
    if c + 1 ≤ skip_to then emitRows skip_to rs (c + 1)
    else r :: emitRows skip_to rs (c + 1)

/-- The same row loop instrumented with the value of the internal cursor
current_global_idx at each yield: the yields of the loop paired with the
cursor value they were produced at. -/
def emitRowsIdx (skip_to : Nat) : List ρ → Nat → List (Nat × ρ)
  | [], _ => []
  | r :: rs, c =>
    if c + 1 ≤ skip_to then emitRowsIdx skip_to rs (c + 1)
    else (c + 1, r) :: emitRowsIdx skip_to rs (c + 1)

/-- Shard loop of read_dataset_stream (hf.py lines 146-182).  The flag first
records whether this is the first iteration, in which no prefetch queue
exists.  A later iteration reads the queue filled for this shard by the
previous iteration (the prefetch outcome); when that is None, or on the first
iteration, the shard is downloaded synchronously.  A shard obtained neither
way is skipped (continue).  When pd.read_parquet fails the exception
propagates and the generator terminates (there is no except branch), so the
stream ends.  c is current_global_idx at entry of the iteration. -/
def streamShards (skip_to : Nat) : List (ShardCfg ρ) → Bool → Nat → List ρ
  | [], _, _ => []
  | s :: rest, first, c =>
    let avail := if first then s.syncOk else (s.prefetchOk || s.syncOk)
    if avail then
      if s.parseOk then
        emitRows skip_to s.rows c ++ streamShards skip_to rest false (c + s.rows.length)
      else
        []
    else
      streamShards skip_to rest false c

/-- Shard loop instrumented with the internal cursor, as emitRowsIdx. -/
def streamShardsIdx (skip_to : Nat) : List (ShardCfg ρ) → Bool → Nat → List (Nat × ρ)
  | [], _, _ => []
  | s :: rest, first, c =>
    let avail := if first then s.syncOk else (s.prefetchOk || s.syncOk)
    if avail then
      if s.parseOk then
        emitRowsIdx skip_to s.rows c ++ streamShardsIdx skip_to rest false (c + s.rows.length)
      else
        []
    else
      streamShardsIdx skip_to rest false c

/-- read_dataset_stream (hf.py lines 125-182): resolve the fast jump when
skip_to > 0, then run the shard loop on the remaining shards starting the
cursor at the rows-before baseline.  The value is the list of records the
generator yields, in order. -/
def read_dataset_stream (shards : List (ShardCfg ρ)) (skip_to : Nat) : List ρ :=
  let p := if skip_to > 0 then find_start_file shards skip_to else (0, 0)
  streamShards skip_to (shards.drop p.1) true p.2

/-- read_dataset_stream instrumented with the internal cursor: each yield
paired with the value of current_global_idx at which it happened. -/
def read_dataset_stream_idx (shards : List (ShardCfg ρ)) (skip_to : Nat) :
    List (Nat × ρ) :=
  let p := if skip_to > 0 then find_start_file shards skip_to else (0, 0)
  streamShardsIdx skip_to (shards.drop p.1) true p.2

/-- Modelled from the spec: the stream of (globalIndex, record) pairs that
section 6 of the spec ascribes to OpenStream; the records with cursor above
skip_to, each tagged with its GlobalCursor value, numbered consecutively
from n + 1. -/
def numberFrom : Nat → List ρ → List (Nat × ρ)
  | _, [] => []
  | n, r :: rs => (n + 1, r) :: numberFrom (n + 1) rs

/-- Result that _download_worker (hf.py lines 38-47) puts into its queue:
the local path on success, the sentinel None on failure. -/
def downloadWorkerResult (s : ShardCfg ρ) : Option Unit :=
  if s.prefetchOk then some () else none

/-- Indices of the shards for which the shard loop calls download_file
synchronously (hf.py lines 149-155): the consumer first takes the queued
prefetch result when a queue exists (every iteration but the first); a
synchronous download happens exactly when there was no queue or the queued
result was the None sentinel.  A parse failure on an available shard kills
the generator, so no later downloads happen. -/
def syncCallsAux : List (ShardCfg ρ) → Bool → Nat → List Nat
  | [], _, _ => []
  | s :: rest, first, i =>
    let fromQueue := !first && s.prefetchOk
    let here := if fromQueue then ([] : List Nat) else [i]
    let avail := fromQueue || s.syncOk
    if avail && !s.parseOk then here
    else here ++ syncCallsAux rest false (i + 1)

/-- Synchronous download positions for a whole run of the shard loop. -/
def syncCalls (l : List (ShardCfg ρ)) : List Nat :=
  syncCallsAux l true 0

/-- Observable events of one run of the shard loop of read_dataset_stream,
in program order.  launch i ok is the download_file_async call for shard i
(hf.py line 159), with the eventual outcome of its worker; getQ i ok is the
queue.get() that iteration i performs on the queue filled for shard i (line
151); syncF i ok is a synchronous download_file call for shard i (line 155);
readRows i is the pd.read_parquet plus row iteration over shard i; delFile i
is the os.remove of shard i's local file in the finally block (lines
178-182). -/
inductive Ev : Type
  | launch : Nat → Bool → Ev
  | getQ : Nat → Bool → Ev
  | syncF : Nat → Bool → Ev
  | readRows : Nat → Ev
  | delFile : Nat → Ev
deriving DecidableEq

/-- Events of one iteration of the shard loop (hf.py lines 146-182) for the
shard s at running index i, with rest the shards after it.  Every iteration
but the first begins by reading the queue of the prefetch launched for it by
the previous iteration; a synchronous download follows when there was no
queue or the queue held the None sentinel; the prefetch of the next shard is
launched before the current shard is read; reading and the finally deletion
happen only when a local path was obtained.  The download_file_async call is
modelled by launchEvs: launched for the next shard exactly when one exists
(hf.py lines 158-161). -/
def launchEvs (rest : List (ShardCfg ρ)) (i : Nat) : List Ev :=
  match rest with
  | [] => []
  | t :: _ => [Ev.launch (i + 1) t.prefetchOk]

def iterEvs (s : ShardCfg ρ) (rest : List (ShardCfg ρ)) (first : Bool) (i : Nat) :
    List Ev :=
  (if first then ([] : List Ev) else [Ev.getQ i s.prefetchOk]) ++
    ((if (!first && s.prefetchOk) then ([] : List Ev) else [Ev.syncF i s.syncOk]) ++
      (launchEvs rest i ++
        (if ((!first && s.prefetchOk) || s.syncOk) then
          if s.parseOk then [Ev.readRows i, Ev.delFile i] else [Ev.delFile i]
        else ([] : List Ev))))

/-- Event trace of a run of the shard loop from the iteration at running
index i onward; a parse failure on an available shard propagates out of the
generator, so no further iterations run. -/
def traceAux : List (ShardCfg ρ) → Bool → Nat → List Ev
  | [], _, _ => []
  | s :: rest, first, i =>
    iterEvs s rest first i ++
      (if ((!first && s.prefetchOk) || s.syncOk) && !s.parseOk then ([] : List Ev)
      else traceAux rest false (i + 1))

/-- Event trace of a full run of the shard loop. -/
def traceOf (l : List (ShardCfg ρ)) : List Ev :=
  traceAux l true 0

/-- Whether an event is the launch of a background download. -/
def isLaunch : Ev → Bool
  | Ev.launch _ _ => true
  | _ => false

/-- Whether an event is a queue.get consuming a background download. -/
def isGetQ : Ev → Bool
  | Ev.getQ _ _ => true
  | _ => false

/-- Local-disk effect of one event: a successful download (background, from
its launch, or synchronous) makes the shard's content resident, the finally
deletion removes it.  Crediting a background download from its launch
over-approximates residency, since the worker writes the file at some point
between the launch and the matching queue.get. -/
def residentStep (d : Finset Nat) : Ev → Finset Nat
  | Ev.launch i ok => if ok then insert i d else d
  | Ev.syncF i ok => if ok then insert i d else d
  | Ev.delFile i => d.erase i
  | _ => d

/-- Shard contents resident on local disk after a list of events, starting
from resident set d. -/
def residentAfter (d : Finset Nat) (tr : List Ev) : Finset Nat :=
  tr.foldl residentStep d

/-- DeleteLocalContent (hf.py lines 178-182): remove the local file if it
still exists; removing an absent file is a no-op and raises nothing. -/
def deleteLocalContent (disk : Finset Nat) (h : Nat) : Finset Nat :=
  if h ∈ disk then disk.erase h else disk

/-- Per-shard read block of read_dataset_stream (hf.py lines 166-182): the
try body deserializes the shard and runs the row loop, the finally clause
deletes the local content.  parsed is the result of pd.read_parquet (none
when it raises), budget is how many yields the consumer pulls before closing
the generator (none: consumed to exhaustion; an early close, like an error
in the consumer, aborts the loop at a yield and still runs the finally
clause).  The value is the list of records actually delivered and the disk
state after the block. -/
def readShardBlock (skip_to c : Nat) (parsed : Option (List ρ))
    (budget : Option Nat) (disk : Finset Nat) (h : Nat) :
    List ρ × Finset Nat :=
  match parsed with
  | none => ([], deleteLocalContent disk h)
  | some rows =>
    let out := emitRows skip_to rows c
    let delivered := match budget with
      | none => out
      | some k => out.take k
    (delivered, deleteLocalContent disk h)

/-- Lexicographic comparison of paths by character code point, the order
Python's sorted uses on str. -/
def strLe : List Char → List Char → Bool
  | [], _ => true
  | _ :: _, [] => false
  | a :: as, b :: bs => if a = b then strLe as bs else decide (a < b)

/-- Stable insertion of a path into a sorted list of paths. -/
def insertSorted (a : List Char) : List (List Char) → List (List Char)
  | [] => [a]
  | b :: bs => if strLe a b then a :: b :: bs else b :: insertSorted a bs

/-- Python's sorted on a list of paths: a stable sort by strLe. -/
def sortStrs (l : List (List Char)) : List (List Char) :=
  l.foldr insertSorted []

/-- list_files (hf.py lines 23-35) applied to the repository listing: keep
the files ending in ".parquet", and return those starting with "en/" sorted,
then those starting with "de/" sorted, then those starting with "fr/"
sorted. -/
def list_files (all_files : List (List Char)) : List (List Char) :=
  let parquet_files := all_files.filter (fun f => ".parquet".toList.isSuffixOf f)
  let sorted_en_files := sortStrs (parquet_files.filter (fun f => "en/".toList.isPrefixOf f))
  let sorted_de_files := sortStrs (parquet_files.filter (fun f => "de/".toList.isPrefixOf f))
  let sorted_fr_files := sortStrs (parquet_files.filter (fun f => "fr/".toList.isPrefixOf f))
  sorted_en_files ++ sorted_de_files ++ sorted_fr_files

/-- Number of rows in the shards strictly before index j, the cumulative
total the fast-jump scan reports for a found shard. -/
def rowsBefore (l : List (ShardCfg ρ)) (j : Nat) : Nat :=
  sumRows (l.take j)

/-- Value of current_global_idx after the row loop of one shard: the loop
increments the cursor exactly once per record observed. -/
def cursorAfterRows : List ρ → Nat → Nat
  | [], c => c
  | _ :: rs, c => cursorAfterRows rs (c + 1)

/-- Shard contents that can be resident when the shard loop reaches the
iteration at running index i of the list l: only shard i itself, and only
when a previous iteration launched its prefetch (first = false) and that
prefetch succeeds. -/
def entryBound (l : List (ShardCfg ρ)) (first : Bool) (i : Nat) : Finset Nat :=
  match l, first with
  | s :: _, false => if s.prefetchOk then {i} else ∅
  | _, _ => ∅

/-- An event may make a shard resident only if that shard is in S. -/
def InsOk (S : Finset Nat) (e : Ev) : Prop :=
  (∀ j ok, e = Ev.launch j ok → ok = true → j ∈ S) ∧
    (∀ j ok, e = Ev.syncF j ok → ok = true → j ∈ S)

/-- Along every prefix of the trace, with p background fetches already in
flight at its start, every queue read is matched by a launch and at most one
launch is unmatched: the count of queue reads never exceeds p plus the count
of launches, and p plus the count of launches never exceeds the count of
queue reads plus one. -/
def Balanced (p : Nat) (tr : List Ev) : Prop :=
  ∀ k, List.countP isGetQ (tr.take k) ≤ p + List.countP isLaunch (tr.take k) ∧
    p + List.countP isLaunch (tr.take k) ≤ List.countP isGetQ (tr.take k) + 1

/-- Along every prefix of the trace, starting from resident set d, at most
two shard contents are resident. -/
def ResidentBounded (d : Finset Nat) (tr : List Ev) : Prop :=
  ∀ k, (residentAfter d (tr.take k)).card ≤ 2

/-- An error-free shard holding the given records. -/
def okShard (rows : List ρ) : ShardCfg ρ :=
  ⟨rows, true, true, true, true⟩

/-- Three error-free shards of 10 records each, holding the values 1 to 30:
the end-to-end example of the spec. -/
def exShards3 : List (ShardCfg Nat) :=
  [okShard (List.range' 1 10), okShard (List.range' 11 10), okShard (List.range' 21 10)]

/-- Three error-free shards with row counts 100, 200 and 150: the fast-jump
example of the spec. -/
def exShards100 : List (ShardCfg Nat) :=
  [okShard (List.range 100), okShard (List.range 200), okShard (List.range 150)]

/-- One shard holding the single record 5. -/
def cexShardsA : List (ShardCfg Nat) :=
  [okShard [5]]

/-- Two shards, the second holding the single record 5. -/
def cexShardsB : List (ShardCfg Nat) :=
  [okShard [3], okShard [5]]

/-- A shard whose metadata fetch fails. -/
def metaFailShard : ShardCfg Nat :=
  ⟨[7, 7, 7], false, true, true, true⟩

/-- A shard whose background download and synchronous download both fail. -/
def fetchFailShard : ShardCfg Nat :=
  ⟨[40, 41], true, false, false, true⟩

/-! Basic facts about the row loop and the numbering of yields. -/

theorem emitRows_eq_map_snd (skip_to : Nat) (l : List ρ) :
    ∀ c, emitRows skip_to l c = (emitRowsIdx skip_to l c).map Prod.snd := by
  induction l with
  | nil => intro c; rfl
  | cons r rs ih =>
    intro c
    simp only [emitRows, emitRowsIdx]
    by_cases h : c + 1 ≤ skip_to
    · simp only [if_pos h]
      exact ih (c + 1)
    · simp only [if_neg h, List.map_cons]
      exact congrArg _ (ih (c + 1))

theorem streamShards_eq_map_snd (skip_to : Nat) (l : List (ShardCfg ρ)) :
    ∀ first c, streamShards skip_to l first c =
      (streamShardsIdx skip_to l first c).map Prod.snd := by
  induction l with
  | nil => intro first c; rfl
  | cons s rest ih =>
    intro first c
    simp only [streamShards, streamShardsIdx]
    by_cases ha : (if first then s.syncOk else (s.prefetchOk || s.syncOk)) = true
    · simp only [ha, if_true]
      by_cases hp : s.parseOk = true
      · simp only [hp, if_true, List.map_append]
        exact congrArg₂ _ (emitRows_eq_map_snd skip_to s.rows c) (ih false _)
      · simp only [hp]
        simp
    · simp only [Bool.not_eq_true] at ha
      simp only [ha, Bool.false_eq_true, if_false]
      exact ih false c

theorem numberFrom_append (a b : List ρ) :
    ∀ n, numberFrom n (a ++ b) = numberFrom n a ++ numberFrom (n + a.length) b := by
  induction a with
  | nil => intro n; simp [numberFrom]
  | cons r rs ih =>
    intro n
    simp only [List.cons_append, numberFrom, List.length_cons]
    rw [show rs.append b = rs ++ b from rfl, ih (n + 1)]
    have : n + 1 + rs.length = n + (rs.length + 1) := by omega
    rw [this]

theorem numberFrom_length (l : List ρ) : ∀ n, (numberFrom n l).length = l.length := by
  induction l with
  | nil => intro n; rfl
  | cons r rs ih => intro n; simp [numberFrom, ih]

theorem map_fst_numberFrom (l : List ρ) :
    ∀ n, (numberFrom n l).map Prod.fst = List.range' (n + 1) l.length := by
  induction l with
  | nil => intro n; rfl
  | cons r rs ih =>
    intro n
    simp [numberFrom, ih (n + 1), List.range'_succ]

theorem map_snd_numberFrom (l : List ρ) :
    ∀ n, (numberFrom n l).map Prod.snd = l := by
  induction l with
  | nil => intro n; rfl
  | cons r rs ih => intro n; simp [numberFrom, ih]

/-- The instrumented row loop yields the records it observes, numbered
consecutively from the cursor value; the first max 0 (skip_to - c) records
are suppressed. -/
theorem emitRowsIdx_spec (skip_to : Nat) (l : List ρ) :
    ∀ c, emitRowsIdx skip_to l c =
      numberFrom (max c skip_to) (l.drop (skip_to - c)) := by
  induction l with
  | nil => intro c; simp [emitRowsIdx, numberFrom]
  | cons r rs ih =>
    intro c
    simp only [emitRowsIdx]
    by_cases h : c + 1 ≤ skip_to
    · rw [if_pos h, ih (c + 1)]
      have h1 : max (c + 1) skip_to = max c skip_to := by omega
      have h2 : skip_to - c = (skip_to - (c + 1)) + 1 := by omega
      rw [h1, h2]
      rfl
    · rw [if_neg h, ih (c + 1)]
      have h1 : max c skip_to = c := by omega
      have h2 : max (c + 1) skip_to = c + 1 := by omega
      have h3 : skip_to - c = 0 := by omega
      have h4 : skip_to - (c + 1) = 0 := by omega
      rw [h1, h2, h3, h4]
      rfl

theorem emitRowsIdx_length (skip_to : Nat) (l : List ρ) (c : Nat) :
    (emitRowsIdx skip_to l c).length = l.length - (skip_to - c) := by
  rw [emitRowsIdx_spec, numberFrom_length, List.length_drop]

/-- The row loop yields exactly the observed records whose cursor value
exceeds skip_to. -/
theorem emitRowsIdx_filter (skip_to : Nat) (l : List ρ) :
    ∀ c, emitRowsIdx skip_to l c =
      (numberFrom c l).filter (fun q => decide (skip_to < q.1)) := by
  induction l with
  | nil => intro c; rfl
  | cons r rs ih =>
    intro c
    simp only [emitRowsIdx, numberFrom, List.filter_cons]
    by_cases h : c + 1 ≤ skip_to
    · have : (decide (skip_to < (c + 1, r).1)) = false := by
        simp; omega
      rw [if_pos h, this, ih (c + 1)]
      simp
    · have : (decide (skip_to < (c + 1, r).1)) = true := by
        simp; omega
      rw [if_neg h, this, ih (c + 1)]
      simp

/-! Facts about the concatenated record sequence and the shard loop. -/

theorem allRecords_cons (s : ShardCfg ρ) (l : List (ShardCfg ρ)) :
    allRecords (s :: l) = s.rows ++ allRecords l := by
  simp [allRecords]

theorem allRecords_length (l : List (ShardCfg ρ)) :
    (allRecords l).length = sumRows l := by
  induction l with
  | nil => rfl
  | cons s rest ih =>
    rw [allRecords_cons, List.length_append, ih]
    simp [sumRows]

theorem drop_append_length (a b : List ρ) (n : Nat) :
    (a ++ b).drop (a.length + n) = b.drop n := by
  rw [List.drop_append_eq_append_drop]
  have h1 : a.drop (a.length + n) = [] := by
    apply List.drop_eq_nil_of_le
    omega
  have h2 : a.length + n - a.length = n := by omega
  rw [h1, h2, List.nil_append]

theorem allRecords_drop (l : List (ShardCfg ρ)) :
    ∀ j, allRecords (l.drop j) = (allRecords l).drop (rowsBefore l j) := by
  induction l with
  | nil => intro j; simp [allRecords, rowsBefore, sumRows]
  | cons s rest ih =>
    intro j
    match j with
    | 0 => simp [rowsBefore, sumRows]
    | j + 1 =>
      have hrb : rowsBefore (s :: rest) (j + 1) = s.rows.length + rowsBefore rest j := by
        simp [rowsBefore, sumRows]
      rw [List.drop_succ_cons, ih j, allRecords_cons, hrb, drop_append_length]

theorem streamShardsIdx_noerr (skip_to : Nat) (l : List (ShardCfg ρ))
    (h : NoErrors l) :
    ∀ first c, streamShardsIdx skip_to l first c =
      numberFrom (max c skip_to) ((allRecords l).drop (skip_to - c)) := by
  induction l with
  | nil => intro first c; simp [streamShardsIdx, allRecords, numberFrom]
  | cons s rest ih =>
    intro first c
    obtain ⟨hm, hpf, hsy, hpa⟩ := h s (by simp)
    have hrest : NoErrors rest := fun x hx => h x (by simp [hx])
    simp only [streamShardsIdx]
    have havail : (if first then s.syncOk else (s.prefetchOk || s.syncOk)) = true := by
      cases first <;> simp [hpf, hsy]
    rw [if_pos havail, if_pos hpa]
    rw [emitRowsIdx_spec, ih hrest false (c + s.rows.length), allRecords_cons,
      List.drop_append_eq_append_drop, numberFrom_append]
    have h1 : max (c + s.rows.length) skip_to =
        max c skip_to + (s.rows.drop (skip_to - c)).length := by
      rw [List.length_drop]; omega
    have h2 : skip_to - (c + s.rows.length) = skip_to - c - s.rows.length := by omega
    rw [h1, h2]

theorem streamShardsIdx_map_fst (skip_to : Nat) (l : List (ShardCfg ρ)) :
    ∀ first c, (streamShardsIdx skip_to l first c).map Prod.fst =
      List.range' (max c skip_to + 1) (streamShardsIdx skip_to l first c).length := by
  induction l with
  | nil => intro first c; simp [streamShardsIdx]
  | cons s rest ih =>
    intro first c
    simp only [streamShardsIdx]
    by_cases ha : (if first then s.syncOk else (s.prefetchOk || s.syncOk)) = true
    · rw [if_pos ha]
      by_cases hp : s.parseOk = true
      · rw [if_pos hp]
        simp only [List.map_append, List.length_append]
        rw [emitRowsIdx_spec, map_fst_numberFrom, ih false (c + s.rows.length),
          numberFrom_length]
        have hr := List.range'_append (max c skip_to + 1)
          ((s.rows.drop (skip_to - c)).length)
          ((streamShardsIdx skip_to rest false (c + s.rows.length)).length) 1
        simp only [one_mul] at hr
        have h1 : max c skip_to + 1 + (s.rows.drop (skip_to - c)).length =
            max (c + s.rows.length) skip_to + 1 := by
          rw [List.length_drop]; omega
        rw [h1] at hr
        rw [hr]
        congr 1
        omega
      · rw [if_neg hp]
        simp
    · rw [if_neg ha]
      exact ih false c

/-! Facts about the fast-jump scan. -/

theorem sumRows_cons (s : ShardCfg ρ) (l : List (ShardCfg ρ)) :
    sumRows (s :: l) = s.rows.length + sumRows l := by
  simp [sumRows]

theorem rowsBefore_zero (l : List (ShardCfg ρ)) : rowsBefore l 0 = 0 := by
  simp [rowsBefore, sumRows]

theorem rowsBefore_cons (s : ShardCfg ρ) (l : List (ShardCfg ρ)) (j : Nat) :
    rowsBefore (s :: l) (j + 1) = s.rows.length + rowsBefore l j := by
  simp [rowsBefore, sumRows]

/-- The baseline the scan reports never exceeds the target offset. -/
theorem findStartAux_snd_le (skip_to : Nat) (l : List (ShardCfg ρ)) :
    ∀ i t, t ≤ skip_to → (findStartAux skip_to l i t).2 ≤ skip_to := by
  induction l with
  | nil => intro i t _; simp [findStartAux]
  | cons s rest ih =>
    intro i t ht
    simp only [findStartAux]
    by_cases hm : s.metaOk = true
    · rw [if_pos hm]
      by_cases hc : t + s.rows.length ≤ skip_to
      · rw [if_pos hc]; exact ih _ _ hc
      · rw [if_neg hc]; exact ht
    · rw [if_neg hm]; exact ih _ _ ht

/-- When the target offset is at least the total, the scan exhausts the
sequence and falls back to (0, 0). -/
theorem findStartAux_exhaust (skip_to : Nat) (l : List (ShardCfg ρ)) :
    ∀ i t, t + sumRows l ≤ skip_to → findStartAux skip_to l i t = (0, 0) := by
  induction l with
  | nil => intro i t _; rfl
  | cons s rest ih =>
    intro i t h
    rw [sumRows_cons] at h
    simp only [findStartAux]
    by_cases hm : s.metaOk = true
    · rw [if_pos hm, if_pos (by omega)]
      exact ih _ _ (by omega)
    · rw [if_neg hm]
      exact ih _ _ (by omega)

/-- Characterization of a successful scan: with readable metadata and the
target inside the total, the scan returns the first shard whose cumulative
range contains the target, together with the rows before it. -/
theorem findStartAux_spec (skip_to : Nat) (l : List (ShardCfg ρ)) :
    ∀ i0 t0, (∀ s ∈ l, s.metaOk = true) → t0 ≤ skip_to →
      skip_to < t0 + sumRows l →
    ∃ j, j < l.length ∧
      findStartAux skip_to l i0 t0 = (i0 + j, t0 + rowsBefore l j) ∧
      t0 + rowsBefore l j ≤ skip_to ∧
      skip_to < t0 + rowsBefore l j + (l.map (fun s => s.rows.length)).getD j 0 ∧
      ∀ m, m < j → t0 + rowsBefore l (m + 1) ≤ skip_to := by
  induction l with
  | nil =>
    intro i0 t0 _ ht0 hlt
    simp [sumRows] at hlt
    omega
  | cons s rest ih =>
    intro i0 t0 hmeta ht0 hlt
    have hm : s.metaOk = true := hmeta s (by simp)
    simp only [findStartAux]
    rw [if_pos hm]
    by_cases hc : t0 + s.rows.length ≤ skip_to
    · rw [if_pos hc]
      have hlt2 : skip_to < (t0 + s.rows.length) + sumRows rest := by
        rw [sumRows_cons] at hlt; omega
      obtain ⟨j, hj, heq, h1, h2, h3⟩ :=
        ih (i0 + 1) (t0 + s.rows.length) (fun x hx => hmeta x (by simp [hx])) hc hlt2
      refine ⟨j + 1, by simp; omega, ?_, ?_, ?_, ?_⟩
      · rw [heq, rowsBefore_cons]
        have he1 : i0 + 1 + j = i0 + (j + 1) := by omega
        have he2 : t0 + s.rows.length + rowsBefore rest j =
            t0 + (s.rows.length + rowsBefore rest j) := by omega
        rw [he1, he2]
      · rw [rowsBefore_cons]; omega
      · rw [rowsBefore_cons]
        simp only [List.map_cons, List.getD_cons_succ]
        omega
      · intro m hm'
        match m with
        | 0 =>
          rw [rowsBefore_cons, rowsBefore_zero]
          omega
        | m + 1 =>
          rw [rowsBefore_cons]
          have := h3 m (by omega)
          omega
    · rw [if_neg hc]
      refine ⟨0, by simp, ?_, ?_, ?_, ?_⟩
      · rw [rowsBefore_zero]
        simp
      · rw [rowsBefore_zero]; omega
      · rw [rowsBefore_zero]
        simp only [List.map_cons, List.getD_cons_zero]
        omega
      · intro m hm'
        omega

/-- Error-free shard sequences are preserved by dropping a prefix. -/
theorem NoErrors_drop (l : List (ShardCfg ρ)) (h : NoErrors l) (j : Nat) :
    NoErrors (l.drop j) :=
  fun x hx => h x (List.drop_subset j l hx)

/-- Running the shard loop from shard j with the cursor at the rows before
shard j produces the records of the whole dataset past the target offset,
numbered from the offset, whenever that baseline is at most the target. -/
theorem streamShardsIdx_from (skip_to : Nat) (shards : List (ShardCfg ρ))
    (h : NoErrors shards) (j T : Nat) (hT : T = rowsBefore shards j)
    (hle : T ≤ skip_to) :
    streamShardsIdx skip_to (shards.drop j) true T =
      numberFrom skip_to ((allRecords shards).drop skip_to) := by
  rw [streamShardsIdx_noerr skip_to (shards.drop j) (NoErrors_drop shards h j) true T,
    allRecords_drop, ← hT, List.drop_drop]
  have h1 : max T skip_to = skip_to := by omega
  have h2 : T + (skip_to - T) = skip_to := by omega
  rw [h1, h2]

/-- The record stream is the second projection of the instrumented stream. -/
theorem read_dataset_stream_eq_map_snd (shards : List (ShardCfg ρ)) (skip_to : Nat) :
    read_dataset_stream shards skip_to =
      (read_dataset_stream_idx shards skip_to).map Prod.snd := by
  simp only [read_dataset_stream, read_dataset_stream_idx]
  exact streamShards_eq_map_snd skip_to _ true _

/-- The row loop advances the cursor by exactly one per record observed. -/
theorem cursorAfterRows_add (l : List ρ) :
    ∀ c, cursorAfterRows l c = c + l.length := by
  induction l with
  | nil => intro c; simp [cursorAfterRows]
  | cons r rs ih =>
    intro c
    simp only [cursorAfterRows, List.length_cons, ih (c + 1)]
    omega

/-- The instrumented stream, from any fast-jump outcome whose baseline is
the rows before the chosen shard and at most the target, is the tail of the
dataset past the target, numbered from the target. -/
theorem read_dataset_stream_idx_eq (shards : List (ShardCfg ρ)) (skip_to : Nat)
    (h : NoErrors shards) (hle : skip_to ≤ sumRows shards) :
    read_dataset_stream_idx shards skip_to =
      numberFrom skip_to ((allRecords shards).drop skip_to) := by
  simp only [read_dataset_stream_idx]
  by_cases hz : skip_to > 0
  · rw [if_pos hz]
    by_cases hlt : skip_to < sumRows shards
    · obtain ⟨j, hj, heq, h1, h2, h3⟩ :=
        findStartAux_spec skip_to shards 0 0 (fun s hs => (h s hs).1) (by omega)
          (by omega)
      have heq2 : find_start_file shards skip_to = (j, rowsBefore shards j) := by
        rw [find_start_file, heq]
        simp
      rw [heq2]
      exact streamShardsIdx_from skip_to shards h j _ rfl (by omega)
    · have heq2 : find_start_file shards skip_to = (0, 0) :=
        findStartAux_exhaust skip_to shards 0 0 (by omega)
      rw [heq2]
      exact streamShardsIdx_from skip_to shards h 0 0 (rowsBefore_zero shards).symm
        (by omega)
  · rw [if_neg hz]
    exact streamShardsIdx_from skip_to shards h 0 0 (rowsBefore_zero shards).symm
      (by omega)

/-- C1: for every startOffset in [0, totalRows], with no listing, metadata,
fetch or format errors, the stream opened at startOffset yields exactly the
records whose GlobalCursor lies in (startOffset, totalRows], in strictly
increasing cursor order with no duplicates and no gaps: the instrumented
stream is the tail of the dataset past the offset numbered consecutively
from startOffset + 1, and the record stream is exactly that tail. -/
theorem C1_open_stream_yields_tail (shards : List (ShardCfg ρ)) (skip_to : Nat)
    (h : NoErrors shards) (hle : skip_to ≤ sumRows shards) :
    read_dataset_stream_idx shards skip_to =
      numberFrom skip_to ((allRecords shards).drop skip_to) ∧
    read_dataset_stream shards skip_to = (allRecords shards).drop skip_to ∧
    (read_dataset_stream_idx shards skip_to).map Prod.fst =
      List.range' (skip_to + 1) (sumRows shards - skip_to) := by
  have hmain := read_dataset_stream_idx_eq shards skip_to h hle
  refine ⟨hmain, ?_, ?_⟩
  · rw [read_dataset_stream_eq_map_snd, hmain, map_snd_numberFrom]
  · rw [hmain, map_fst_numberFrom, List.length_drop, allRecords_length]

/-- Witness: the end-to-end example of the spec, three shards of ten records
and startOffset 15; the stream yields the last fifteen records with cursors
16 to 30. -/
theorem C1_witness :
    NoErrors exShards3 ∧ 15 ≤ sumRows exShards3 ∧
    (read_dataset_stream_idx exShards3 15 =
      numberFrom 15 ((allRecords exShards3).drop 15) ∧
    read_dataset_stream exShards3 15 = (allRecords exShards3).drop 15 ∧
    (read_dataset_stream_idx exShards3 15).map Prod.fst =
      List.range' (15 + 1) (sumRows exShards3 - 15)) :=
  ⟨by decide, by decide, C1_open_stream_yields_tail exShards3 15 (by decide) (by decide)⟩

/-- C2, counterexample: the generator of read_dataset_stream yields only
row._asdict(), not a (globalIndex, record) pair.  The runs on cexShardsA at
offset 0 and on cexShardsB at offset 1 yield the one record 5 at different
GlobalCursor values (1 and 2 respectively), yet their streams are literally
equal: the yielded elements carry no global index, so the stream cannot be
yielding the cursor together with the record. -/
theorem C2_counterexample :
    read_dataset_stream cexShardsA 0 = read_dataset_stream cexShardsB 1 ∧
    read_dataset_stream_idx cexShardsA 0 ≠ read_dataset_stream_idx cexShardsB 1 := by
  decide

/-- C2, amended: each element the stream yields is the record alone; the
global index is only internal.  The record stream is the second projection
of the cursor-instrumented stream, and the instrumented row loop yields
exactly the observed records whose cursor value exceeds skip_to, each paired
with its cursor value. -/
theorem C2_stream_yields_record_only (shards : List (ShardCfg ρ)) (skip_to : Nat) :
    read_dataset_stream shards skip_to =
      (read_dataset_stream_idx shards skip_to).map Prod.snd ∧
    ∀ (rows : List ρ) (c : Nat),
      emitRowsIdx skip_to rows c =
        (numberFrom c rows).filter (fun q => decide (skip_to < q.1)) :=
  ⟨read_dataset_stream_eq_map_snd shards skip_to,
    fun rows c => emitRowsIdx_filter skip_to rows c⟩

/-- C8: over one run of the stream the cursor starts at the fast-jump
baseline, which never exceeds skip_to, and increases by exactly one per
record observed; consequently the cursor values of the yielded records are
consecutive from skip_to + 1: strictly increasing, no gaps, no duplicates.
This holds for every error pattern, since a skipped shard advances neither
the cursor nor the output. -/
theorem C8_cursor_invariant (shards : List (ShardCfg ρ)) (skip_to : Nat) :
    (read_dataset_stream_idx shards skip_to).map Prod.fst =
      List.range' (skip_to + 1) (read_dataset_stream_idx shards skip_to).length ∧
    (find_start_file shards skip_to).2 ≤ skip_to ∧
    ∀ (rows : List ρ) (c : Nat), cursorAfterRows rows c = c + rows.length := by
  refine ⟨?_, findStartAux_snd_le skip_to shards 0 0 (by omega),
    fun rows c => cursorAfterRows_add rows c⟩
  simp only [read_dataset_stream_idx]
  have hbase : (if skip_to > 0 then find_start_file shards skip_to else (0, 0)).2
      ≤ skip_to := by
    by_cases hz : skip_to > 0
    · rw [if_pos hz]
      exact findStartAux_snd_le skip_to shards 0 0 (by omega)
    · rw [if_neg hz]
      omega
  rw [streamShardsIdx_map_fst]
  have hm : max (if skip_to > 0 then find_start_file shards skip_to else (0, 0)).2
      skip_to = skip_to := by omega
  rw [hm]

/-- C3: with readable metadata and the target below the total, the scan
returns the first shard whose cumulative range contains the target together
with the rows before it; in particular (1, 100) for target 250 on row counts
[100, 200, 150], and (0, 0) for target 0. -/
theorem C3_find_start_file_locates (shards : List (ShardCfg ρ)) (skip_to : Nat)
    (hmeta : ∀ s ∈ shards, s.metaOk = true) (hlt : skip_to < sumRows shards) :
    ((find_start_file shards skip_to).1 < shards.length ∧
     (find_start_file shards skip_to).2 =
       rowsBefore shards (find_start_file shards skip_to).1 ∧
     (find_start_file shards skip_to).2 ≤ skip_to ∧
     skip_to < (find_start_file shards skip_to).2 +
       (shards.map (fun s => s.rows.length)).getD (find_start_file shards skip_to).1 0 ∧
     (∀ m, m < (find_start_file shards skip_to).1 →
       rowsBefore shards (m + 1) ≤ skip_to)) ∧
    find_start_file exShards100 250 = (1, 100) ∧
    find_start_file exShards100 0 = (0, 0) := by
  obtain ⟨j, hj, heq, h1, h2, h3⟩ :=
    findStartAux_spec skip_to shards 0 0 hmeta (by omega) (by omega)
  have heq2 : find_start_file shards skip_to = (j, rowsBefore shards j) := by
    rw [find_start_file, heq]
    simp
  refine ⟨?_, by decide, by decide⟩
  rw [heq2]
  refine ⟨hj, rfl, by omega, by simpa using h2, ?_⟩
  intro m hm
  have := h3 m hm
  omega

/-- Witness: the fast-jump example of the spec, row counts [100, 200, 150]
and target 250. -/
theorem C3_witness :
    (∀ s ∈ exShards100, s.metaOk = true) ∧ 250 < sumRows exShards100 ∧
    (((find_start_file exShards100 250).1 < exShards100.length ∧
      (find_start_file exShards100 250).2 =
        rowsBefore exShards100 (find_start_file exShards100 250).1 ∧
      (find_start_file exShards100 250).2 ≤ 250 ∧
      250 < (find_start_file exShards100 250).2 +
        (exShards100.map (fun s => s.rows.length)).getD
          (find_start_file exShards100 250).1 0 ∧
      (∀ m, m < (find_start_file exShards100 250).1 →
        rowsBefore exShards100 (m + 1) ≤ 250)) ∧
     find_start_file exShards100 250 = (1, 100) ∧
     find_start_file exShards100 0 = (0, 0)) :=
  ⟨by decide, by decide,
    C3_find_start_file_locates exShards100 250 (by decide) (by decide)⟩

/-- C4: when the target offset is at least the total rows of the sequence,
the scan exhausts all shards without resolving and returns the documented
fallback (0, 0). -/
theorem C4_exhausted_scan_falls_back (shards : List (ShardCfg ρ)) (skip_to : Nat)
    (h : sumRows shards ≤ skip_to) :
    find_start_file shards skip_to = (0, 0) :=
  findStartAux_exhaust skip_to shards 0 0 (by omega)

/-- Witness: the spec's fallback example, target 500 on total 450. -/
theorem C4_witness :
    sumRows exShards100 ≤ 500 ∧ find_start_file exShards100 500 = (0, 0) :=
  ⟨by decide, C4_exhausted_scan_falls_back exShards100 500 (by decide)⟩

/-- The scan is unchanged when a shard with failed metadata is replaced by a
readable shard with no rows, provided the running total is within the
target: the failure contributes nothing and does not stop the scan. -/
theorem findStartAux_replace_failed (skip_to : Nat) (s : ShardCfg ρ)
    (hfail : s.metaOk = false) (post : List (ShardCfg ρ)) :
    ∀ (pre : List (ShardCfg ρ)) (i t : Nat), t ≤ skip_to →
      findStartAux skip_to (pre ++ s :: post) i t =
        findStartAux skip_to (pre ++ { s with rows := [], metaOk := true } :: post)
          i t := by
  intro pre
  induction pre with
  | nil =>
    intro i t ht
    simp only [List.nil_append, findStartAux]
    rw [if_neg (show ¬(s.metaOk = true) by simp [hfail])]
    rw [if_pos True.intro]
    rw [if_pos (show t + ([] : List ρ).length ≤ skip_to by simpa using ht)]
    simp
  | cons p pre ih =>
    intro i t ht
    simp only [List.cons_append, findStartAux]
    by_cases hm : p.metaOk = true
    · rw [if_pos hm, if_pos hm]
      by_cases hc : t + p.rows.length ≤ skip_to
      · rw [if_pos hc, if_pos hc]
        exact ih _ _ hc
      · rw [if_neg hc, if_neg hc]
    · rw [if_neg hm, if_neg hm]
      exact ih _ _ ht

/-- C5: a shard whose metadata fetch fails is non-fatal to the scan: the
scan continues with the remaining shards at the next index with the
cumulative total unchanged, and the whole scan behaves as if the failing
shard contributed zero rows. -/
theorem C5_metadata_failure_nonfatal (s : ShardCfg ρ)
    (rest pre post : List (ShardCfg ρ)) (i t skip_to : Nat)
    (hfail : s.metaOk = false) :
    findStartAux skip_to (s :: rest) i t = findStartAux skip_to rest (i + 1) t ∧
    find_start_file (pre ++ s :: post) skip_to =
      find_start_file (pre ++ { s with rows := [], metaOk := true } :: post)
        skip_to := by
  constructor
  · simp only [findStartAux]
    rw [if_neg (by simp [hfail])]
  · exact findStartAux_replace_failed skip_to s hfail post pre 0 0 (by omega)

/-- Witness: a failing shard of three rows between two readable shards. -/
theorem C5_witness :
    metaFailShard.metaOk = false ∧
    (findStartAux 250 (metaFailShard :: [okShard (List.range 300)]) 1 100 =
      findStartAux 250 [okShard (List.range 300)] 2 100 ∧
    find_start_file ([okShard (List.range 100)] ++ metaFailShard ::
        [okShard (List.range 300)]) 250 =
      find_start_file ([okShard (List.range 100)] ++
        { metaFailShard with rows := [], metaOk := true } ::
          [okShard (List.range 300)]) 250) :=
  ⟨by decide,
    C5_metadata_failure_nonfatal metaFailShard [okShard (List.range 300)]
      [okShard (List.range 100)] [okShard (List.range 300)] 1 100 250 (by decide)⟩

/-! Facts about the synchronous-retry and shard-skip behavior. -/

/-- Sync-download positions are at least the starting index. -/
theorem syncCallsAux_ge (l : List (ShardCfg ρ)) :
    ∀ first i, ∀ x ∈ syncCallsAux l first i, i ≤ x := by
  induction l with
  | nil => intro first i x hx; simp [syncCallsAux] at hx
  | cons s rest ih =>
    intro first i x hx
    simp only [syncCallsAux] at hx
    have hhere : ∀ y, y ∈ (if (!first && s.prefetchOk) = true then ([] : List Nat)
        else [i]) → i ≤ y := by
      intro y hy
      by_cases hq : (!first && s.prefetchOk) = true
      · rw [if_pos hq] at hy
        simp at hy
      · rw [if_neg hq] at hy
        simp at hy
        omega
    by_cases hterm : (((!first && s.prefetchOk) || s.syncOk) && !s.parseOk) = true
    · rw [if_pos hterm] at hx
      exact hhere x hx
    · rw [if_neg hterm] at hx
      rcases List.mem_append.mp hx with hx | hx
      · exact hhere x hx
      · have := ih false (i + 1) x hx
        omega

/-- Reaching a prefetch-failed shard, the loop performs exactly one
synchronous download for it: its position occurs exactly once among the
sync-download positions, provided the loop reaches it (the shards before it
parse whenever read). -/
theorem syncCallsAux_count (s : ShardCfg ρ) (l₂ : List (ShardCfg ρ))
    (hpf : s.prefetchOk = false) :
    ∀ (l₁ : List (ShardCfg ρ)) (first : Bool) (i : Nat),
      (l₁ = [] → first = false) → (∀ x ∈ l₁, x.parseOk = true) →
      List.count (i + l₁.length) (syncCallsAux (l₁ ++ s :: l₂) first i) = 1 := by
  intro l₁
  induction l₁ with
  | nil =>
    intro first i hfirst _
    rw [hfirst rfl]
    simp only [List.nil_append, syncCallsAux, Bool.not_false, Bool.true_and, hpf,
      Bool.false_eq_true, if_false, Bool.false_or, List.length_nil, Nat.add_zero]
    have hz : ∀ tr, (∀ x ∈ tr, i + 1 ≤ x) → List.count i tr = 0 := by
      intro tr htr
      exact List.count_eq_zero.mpr (fun hmem => by have := htr i hmem; omega)
    split
    · simp
    · rw [List.count_append]
      have := hz _ (syncCallsAux_ge l₂ false (i + 1))
      simp [this]
  | cons x l₁ ih =>
    intro first i _ hpa
    have hx : x.parseOk = true := hpa x (by simp)
    simp only [List.cons_append, syncCallsAux, hx, Bool.not_true, Bool.and_false,
      Bool.false_eq_true, if_false, List.length_cons]
    have harith : i + (l₁.length + 1) = (i + 1) + l₁.length := by omega
    rw [harith, List.count_append]
    have hone : List.count ((i + 1) + l₁.length)
        (syncCallsAux (l₁ ++ s :: l₂) false (i + 1)) = 1 :=
      ih false (i + 1) (fun _ => rfl) (fun y hy => hpa y (by simp [hy]))
    by_cases hq : (!first && x.prefetchOk) = true
    · rw [if_pos hq]
      simpa using hone
    · rw [if_neg hq]
      have hzero : List.count ((i + 1) + l₁.length) [i] = 0 :=
        List.count_eq_zero.mpr (by simp; omega)
      simp only [List.append_eq]
      rw [hzero, hone]

/-- A shard whose background and synchronous downloads both fail contributes
nothing: the loop output equals the output on the list without it, for any
iteration at which a prefetch queue exists. -/
theorem streamShardsIdx_skip_failed (s : ShardCfg ρ) (l₂ : List (ShardCfg ρ))
    (hpf : s.prefetchOk = false) (hsy : s.syncOk = false) (skip_to : Nat) :
    ∀ (l₁ : List (ShardCfg ρ)) (first : Bool) (c : Nat), (l₁ = [] → first = false) →
      streamShardsIdx skip_to (l₁ ++ s :: l₂) first c =
        streamShardsIdx skip_to (l₁ ++ l₂) first c := by
  intro l₁
  induction l₁ with
  | nil =>
    intro first c hfirst
    rw [hfirst rfl]
    simp only [List.nil_append, streamShardsIdx]
    rw [if_neg (by simp [hpf, hsy])]
  | cons x l₁ ih =>
    intro first c _
    simp only [List.cons_append, streamShardsIdx]
    by_cases ha : (if first then x.syncOk else (x.prefetchOk || x.syncOk)) = true
    · rw [if_pos ha, if_pos ha]
      by_cases hp : x.parseOk = true
      · rw [if_pos hp, if_pos hp]
        simp only [List.append_eq]
        rw [ih false _ (fun _ => rfl)]
      · rw [if_neg hp, if_neg hp]
    · rw [if_neg ha, if_neg ha]
      exact ih false c (fun _ => rfl)

/-- C6: when the background fetch of a shard fails, the worker hands the
consumer the None sentinel through the queue; the loop then performs exactly
one synchronous download for that shard; and if that also fails, the shard
is skipped entirely and the stream continues with the remaining shards
instead of terminating. -/
theorem C6_prefetch_failure_retry_then_skip (s : ShardCfg ρ)
    (l₁ l₂ : List (ShardCfg ρ)) (hne : l₁ ≠ []) (hpf : s.prefetchOk = false) :
    downloadWorkerResult s = none ∧
    ((∀ x ∈ l₁, x.parseOk = true) →
      List.count l₁.length (syncCalls (l₁ ++ s :: l₂)) = 1) ∧
    (s.syncOk = false → ∀ (skip_to c : Nat),
      streamShardsIdx skip_to (l₁ ++ s :: l₂) true c =
        streamShardsIdx skip_to (l₁ ++ l₂) true c) := by
  refine ⟨by simp [downloadWorkerResult, hpf], ?_, ?_⟩
  · intro hpa
    have := syncCallsAux_count s l₂ hpf l₁ true 0 (fun h => absurd h hne) hpa
    simpa [syncCalls] using this
  · intro hsy skip_to c
    exact streamShardsIdx_skip_failed s l₂ hpf hsy skip_to l₁ true c
      (fun h => absurd h hne)

/-- Witness: one good shard, then a shard failing both downloads, then one
good shard; the failing shard is retried synchronously once and skipped. -/
theorem C6_witness :
    ([okShard ([1] : List Nat)] ≠ []) ∧ fetchFailShard.prefetchOk = false ∧
    downloadWorkerResult fetchFailShard = none ∧
    List.count 1 (syncCalls ([okShard [1]] ++ fetchFailShard :: [okShard [9]])) = 1 ∧
    streamShardsIdx 0 ([okShard ([1] : List Nat)] ++ fetchFailShard :: [okShard [9]])
        true 0 =
      streamShardsIdx 0 ([okShard [1]] ++ [okShard [9]]) true 0 := by
  have h := C6_prefetch_failure_retry_then_skip fetchFailShard
    [okShard ([1] : List Nat)] [okShard [9]] (by simp) (by decide)
  exact ⟨by simp, by decide, h.1, by simpa using h.2.1 (by decide),
    h.2.2 (by decide) 0 0⟩

/-- C7: for a fetched shard, the local content is gone after the read block
on every exit path (full consumption, deserialization failure, early stop by
the consumer), the disk state after the block is exactly the one produced by
the finally deletion, and deleting an already-deleted handle is a no-op that
raises nothing. -/
theorem C7_cleanup_every_exit_path (skip_to c : Nat) (parsed : Option (List ρ))
    (budget : Option Nat) (disk : Finset Nat) (h : Nat) :
    (readShardBlock skip_to c parsed budget disk h).2 = deleteLocalContent disk h ∧
    h ∉ (readShardBlock skip_to c parsed budget disk h).2 ∧
    deleteLocalContent (deleteLocalContent disk h) h = deleteLocalContent disk h := by
  have hdel : ∀ d : Finset Nat, h ∉ deleteLocalContent d h := by
    intro d
    unfold deleteLocalContent
    split_ifs with hm
    · exact Finset.not_mem_erase h d
    · exact hm
  have heq : (readShardBlock skip_to c parsed budget disk h).2 =
      deleteLocalContent disk h := by
    cases parsed with
    | none => rfl
    | some rows => cases budget <;> rfl
  refine ⟨heq, heq ▸ hdel disk, ?_⟩
  rw [deleteLocalContent, if_neg (hdel disk)]

/-! Machinery for the concurrency and disk-residency bounds. -/

theorem residentAfter_append (d : Finset Nat) (a b : List Ev) :
    residentAfter d (a ++ b) = residentAfter (residentAfter d a) b :=
  List.foldl_append residentStep d a b

theorem InsOk_getQ (S : Finset Nat) (j : Nat) (ok : Bool) : InsOk S (Ev.getQ j ok) :=
  ⟨fun _ _ h => Ev.noConfusion h, fun _ _ h => Ev.noConfusion h⟩

theorem InsOk_readRows (S : Finset Nat) (j : Nat) : InsOk S (Ev.readRows j) :=
  ⟨fun _ _ h => Ev.noConfusion h, fun _ _ h => Ev.noConfusion h⟩

theorem InsOk_delFile (S : Finset Nat) (j : Nat) : InsOk S (Ev.delFile j) :=
  ⟨fun _ _ h => Ev.noConfusion h, fun _ _ h => Ev.noConfusion h⟩

theorem InsOk_launch (S : Finset Nat) (j : Nat) (ok : Bool)
    (h : ok = true → j ∈ S) : InsOk S (Ev.launch j ok) :=
  ⟨fun j2 ok2 heq hok => by cases heq; exact h hok,
    fun _ _ heq => Ev.noConfusion heq⟩

theorem InsOk_syncF (S : Finset Nat) (j : Nat) (ok : Bool)
    (h : ok = true → j ∈ S) : InsOk S (Ev.syncF j ok) :=
  ⟨fun _ _ heq => Ev.noConfusion heq,
    fun j2 ok2 heq hok => by cases heq; exact h hok⟩

theorem residentStep_subset (d S : Finset Nat) (e : Ev) (hd : d ⊆ S)
    (he : InsOk S e) : residentStep d e ⊆ S := by
  cases e with
  | launch j ok =>
    simp only [residentStep]
    split_ifs with hok
    · exact Finset.insert_subset_iff.mpr ⟨he.1 j ok rfl hok, hd⟩
    · exact hd
  | syncF j ok =>
    simp only [residentStep]
    split_ifs with hok
    · exact Finset.insert_subset_iff.mpr ⟨he.2 j ok rfl hok, hd⟩
    · exact hd
  | getQ j ok => exact hd
  | readRows j => exact hd
  | delFile j => exact (Finset.erase_subset j d).trans hd

theorem residentAfter_subset_full (tr : List Ev) :
    ∀ (d S : Finset Nat), d ⊆ S → (∀ e ∈ tr, InsOk S e) →
      residentAfter d tr ⊆ S := by
  induction tr with
  | nil => intro d S hd _; exact hd
  | cons e tr ih =>
    intro d S hd he
    exact ih (residentStep d e) S (residentStep_subset d S e hd (he e (by simp)))
      (fun x hx => he x (by simp [hx]))

theorem residentAfter_take_subset (tr : List Ev) (d S : Finset Nat) (hd : d ⊆ S)
    (he : ∀ e ∈ tr, InsOk S e) (k : Nat) : residentAfter d (tr.take k) ⊆ S :=
  residentAfter_subset_full (tr.take k) d S hd
    (fun e hek => he e (List.take_subset k tr hek))

theorem entryBound_subset (l : List (ShardCfg ρ)) (first : Bool) (i : Nat) :
    entryBound l first i ⊆ {i} := by
  cases l with
  | nil => simp [entryBound]
  | cons s rest =>
    cases first with
    | true => simp [entryBound]
    | false =>
      simp only [entryBound]
      split_ifs
      · exact Finset.Subset.refl _
      · simp

theorem entryBound_card (l : List (ShardCfg ρ)) (first : Bool) (i : Nat) :
    (entryBound l first i).card ≤ 1 := by
  have := Finset.card_le_card (entryBound_subset l first i)
  simpa using this

/-- Every event of one iteration is one of its five possible shapes. -/
theorem mem_iterEvs (s : ShardCfg ρ) (rest : List (ShardCfg ρ)) (first : Bool)
    (i : Nat) (e : Ev) (he : e ∈ iterEvs s rest first i) :
    e = Ev.getQ i s.prefetchOk ∨ e = Ev.syncF i s.syncOk ∨
    (∃ t rs, rest = t :: rs ∧ e = Ev.launch (i + 1) t.prefetchOk) ∨
    e = Ev.readRows i ∨ e = Ev.delFile i := by
  simp only [iterEvs, List.mem_append] at he
  rcases he with he | he | he | he
  · by_cases hf : first = true
    · rw [if_pos hf] at he
      simp at he
    · rw [if_neg hf] at he
      simp at he
      exact Or.inl he
  · by_cases hq : (!first && s.prefetchOk) = true
    · rw [if_pos hq] at he
      simp at he
    · rw [if_neg hq] at he
      simp at he
      exact Or.inr (Or.inl he)
  · cases rest with
    | nil => simp [launchEvs] at he
    | cons t rs =>
      simp [launchEvs] at he
      exact Or.inr (Or.inr (Or.inl ⟨t, rs, rfl, he⟩))
  · by_cases hv : ((!first && s.prefetchOk) || s.syncOk) = true
    · rw [if_pos hv] at he
      by_cases hp : s.parseOk = true
      · rw [if_pos hp] at he
        simp at he
        rcases he with he | he
        · exact Or.inr (Or.inr (Or.inr (Or.inl he)))
        · exact Or.inr (Or.inr (Or.inr (Or.inr he)))
      · rw [if_neg hp] at he
        simp at he
        exact Or.inr (Or.inr (Or.inr (Or.inr he)))
    · rw [if_neg hv] at he
      simp at he

theorem iterEvs_InsOk (s : ShardCfg ρ) (rest : List (ShardCfg ρ)) (first : Bool)
    (i : Nat) :
    ∀ e ∈ iterEvs s rest first i,
      InsOk (insert i (entryBound rest false (i + 1))) e := by
  intro e he
  rcases mem_iterEvs s rest first i e he with h | h | ⟨t, rs, hr, h⟩ | h | h
  · exact h ▸ InsOk_getQ _ _ _
  · exact h ▸ InsOk_syncF _ _ _ (fun _ => Finset.mem_insert_self i _)
  · subst hr
    refine h ▸ InsOk_launch _ _ _ (fun hok => ?_)
    apply Finset.mem_insert_of_mem
    simp [entryBound, hok]
  · exact h ▸ InsOk_readRows _ _
  · exact h ▸ InsOk_delFile _ _

theorem iterEvs_InsOk_unavail (s : ShardCfg ρ) (rest : List (ShardCfg ρ))
    (first : Bool) (i : Nat) (hsy : s.syncOk = false) :
    ∀ e ∈ iterEvs s rest first i, InsOk (entryBound rest false (i + 1)) e := by
  intro e he
  rcases mem_iterEvs s rest first i e he with h | h | ⟨t, rs, hr, h⟩ | h | h
  · exact h ▸ InsOk_getQ _ _ _
  · refine h ▸ InsOk_syncF _ _ _ (fun hok => absurd hok (by simp [hsy]))
  · subst hr
    refine h ▸ InsOk_launch _ _ _ (fun hok => ?_)
    simp [entryBound, hok]
  · exact h ▸ InsOk_readRows _ _
  · exact h ▸ InsOk_delFile _ _

/-- Main residency invariant: starting an iteration with at most the shard
the previous iteration prefetched on disk, every prefix of the remaining
trace keeps at most two shard contents resident. -/
theorem resident_bound_aux (l : List (ShardCfg ρ)) :
    ∀ (first : Bool) (i : Nat) (d : Finset Nat), d ⊆ entryBound l first i →
      ResidentBounded d (traceAux l first i) := by
  induction l with
  | nil =>
    intro first i d hd k
    have hcard := Finset.card_le_card hd
    simp only [entryBound, Finset.card_empty] at hcard
    simp only [traceAux, List.take_nil, ResidentBounded, residentAfter,
      List.foldl_nil]
    omega
  | cons s rest ih =>
    intro first i d hd k
    have hScard : (insert i (entryBound rest false (i + 1))).card ≤ 2 := by
      have h1 := Finset.card_insert_le i (entryBound rest false (i + 1))
      have h2 := entryBound_card rest false (i + 1)
      omega
    have hdS : d ⊆ insert i (entryBound rest false (i + 1)) := by
      refine hd.trans ((entryBound_subset _ _ _).trans ?_)
      exact Finset.singleton_subset_iff.mpr (Finset.mem_insert_self i _)
    simp only [traceAux]
    rw [List.take_append_eq_append_take, residentAfter_append]
    by_cases hk : k ≤ (iterEvs s rest first i).length
    · have h0 : k - (iterEvs s rest first i).length = 0 := by omega
      rw [h0, List.take_zero]
      exact le_trans
        (Finset.card_le_card (residentAfter_take_subset _ d _ hdS
          (iterEvs_InsOk s rest first i) k)) hScard
    · have hk2 : (iterEvs s rest first i).length ≤ k := by omega
      rw [List.take_of_length_le hk2]
      have hfullS : residentAfter d (iterEvs s rest first i) ⊆
          insert i (entryBound rest false (i + 1)) :=
        residentAfter_subset_full _ d _ hdS (iterEvs_InsOk s rest first i)
      by_cases hcut : ((((!first && s.prefetchOk) || s.syncOk)) && !s.parseOk) = true
      · rw [if_pos hcut]
        simp only [List.take_nil, residentAfter, List.foldl_nil]
        exact le_trans (Finset.card_le_card hfullS) hScard
      · rw [if_neg hcut]
        refine ih false (i + 1) (residentAfter d (iterEvs s rest first i)) ?_ _
        by_cases havail : ((!first && s.prefetchOk) || s.syncOk) = true
        · have hparse : s.parseOk = true := by
            cases hpp : s.parseOk
            · exact absurd (by simp [havail, hpp]) hcut
            · rfl
          have hiter : residentAfter d (iterEvs s rest first i) =
              (residentAfter d
                ((if first then ([] : List Ev) else [Ev.getQ i s.prefetchOk]) ++
                  ((if (!first && s.prefetchOk) then ([] : List Ev)
                    else [Ev.syncF i s.syncOk]) ++
                    launchEvs rest i))).erase i := by
            simp only [iterEvs, if_pos havail, if_pos hparse]
            simp only [residentAfter_append]
            simp [residentAfter, residentStep]
          rw [hiter]
          have hX : residentAfter d
              ((if first then ([] : List Ev) else [Ev.getQ i s.prefetchOk]) ++
                ((if (!first && s.prefetchOk) then ([] : List Ev)
                  else [Ev.syncF i s.syncOk]) ++
                  launchEvs rest i)) ⊆
              insert i (entryBound rest false (i + 1)) := by
            refine residentAfter_subset_full _ d _ hdS (fun e he => ?_)
            refine iterEvs_InsOk s rest first i e ?_
            simp only [iterEvs, List.mem_append] at he ⊢
            tauto
          intro x hx
          rcases Finset.mem_erase.mp hx with ⟨hxi, hxX⟩
          rcases Finset.mem_insert.mp (hX hxX) with hx1 | hx1
          · exact absurd hx1 hxi
          · exact hx1
        · have hsy : s.syncOk = false := by
            cases hpp : s.syncOk
            · rfl
            · exact absurd (by simp [hpp]) havail
          have hd0 : d = ∅ := by
            have hfq : (!first && s.prefetchOk) = false := by
              cases hpp : (!first && s.prefetchOk)
              · rfl
              · exact absurd (by simp [hpp]) havail
            refine Finset.subset_empty.mp (hd.trans ?_)
            cases first with
            | true => simp [entryBound]
            | false =>
              simp only [entryBound]
              rw [if_neg (by simpa using hfq)]
          subst hd0
          exact residentAfter_subset_full _ _ _ (Finset.empty_subset _)
            (iterEvs_InsOk_unavail s rest first i hsy)

/-! Machinery for the single-outstanding-prefetch bound. -/

theorem balanced_nil (p : Nat) (hp : p ≤ 1) : Balanced p [] := by
  intro k
  simp only [List.take_nil, List.countP_nil]
  omega

theorem balanced_cons_getQ (i : Nat) (ok : Bool) (tr : List Ev)
    (h : Balanced 0 tr) : Balanced 1 (Ev.getQ i ok :: tr) := by
  intro k
  match k with
  | 0 => simp [List.take_zero]
  | k + 1 =>
    simp only [List.take_succ_cons, List.countP_cons]
    have hk := h k
    simp [isGetQ, isLaunch]
    omega

theorem balanced_cons_launch (j : Nat) (ok : Bool) (tr : List Ev)
    (h : Balanced 1 tr) : Balanced 0 (Ev.launch j ok :: tr) := by
  intro k
  match k with
  | 0 => simp [List.take_zero]
  | k + 1 =>
    simp only [List.take_succ_cons, List.countP_cons]
    have hk := h k
    simp [isGetQ, isLaunch]
    omega

theorem balanced_neutral_append (xs : List Ev) (hg : List.countP isGetQ xs = 0)
    (hl : List.countP isLaunch xs = 0) (p : Nat) (tr : List Ev)
    (h : Balanced p tr) : Balanced p (xs ++ tr) := by
  intro k
  rw [List.take_append_eq_append_take, List.countP_append, List.countP_append]
  have hg1 : List.countP isGetQ (xs.take k) = 0 := by
    have := (List.take_sublist k xs).countP_le isGetQ
    omega
  have hl1 : List.countP isLaunch (xs.take k) = 0 := by
    have := (List.take_sublist k xs).countP_le isLaunch
    omega
  have hk := h (k - xs.length)
  omega

/-- Main balance invariant: entering the first iteration no background fetch
is outstanding, entering any later iteration exactly one is, and every
prefix of the trace keeps the balance between zero and one. -/
theorem balanced_traceAux (l : List (ShardCfg ρ)) :
    ∀ (first : Bool) (i : Nat),
      Balanced (if first then 0 else 1) (traceAux l first i) := by
  induction l with
  | nil =>
    intro first i
    apply balanced_nil
    cases first <;> simp
  | cons s rest ih =>
    intro first i
    have hR : Balanced 1
        (if (((!first && s.prefetchOk) || s.syncOk) && !s.parseOk) = true
          then ([] : List Ev) else traceAux rest false (i + 1)) := by
      split_ifs with hcut
      · exact balanced_nil 1 (by omega)
      · simpa using ih false (i + 1)
    have hR0 : rest = [] → Balanced 0
        (if (((!first && s.prefetchOk) || s.syncOk) && !s.parseOk) = true
          then ([] : List Ev) else traceAux rest false (i + 1)) := by
      intro hrest
      subst hrest
      split_ifs with hcut
      · exact balanced_nil 0 (by omega)
      · simp only [traceAux]
        exact balanced_nil 0 (by omega)
    have hbody : ∀ p tr, Balanced p tr → Balanced p
        ((if ((!first && s.prefetchOk) || s.syncOk) = true then
            if s.parseOk = true then [Ev.readRows i, Ev.delFile i]
            else [Ev.delFile i]
          else ([] : List Ev)) ++ tr) := by
      intro p tr hp
      refine balanced_neutral_append _ ?_ ?_ p tr hp <;>
        split_ifs <;> simp [isGetQ, isLaunch]
    have hsync : ∀ p tr, Balanced p tr → Balanced p
        ((if (!first && s.prefetchOk) = true then ([] : List Ev)
          else [Ev.syncF i s.syncOk]) ++ tr) := by
      intro p tr hp
      refine balanced_neutral_append _ ?_ ?_ p tr hp <;>
        split_ifs <;> simp [isGetQ, isLaunch]
    have hmid : Balanced 0
        (launchEvs rest i ++
          ((if ((!first && s.prefetchOk) || s.syncOk) = true then
              if s.parseOk = true then [Ev.readRows i, Ev.delFile i]
              else [Ev.delFile i]
            else ([] : List Ev)) ++
            (if (((!first && s.prefetchOk) || s.syncOk) && !s.parseOk) = true
              then ([] : List Ev) else traceAux rest false (i + 1)))) := by
      cases rest with
      | nil =>
        simp only [launchEvs, List.nil_append]
        exact hbody 0 _ (hR0 rfl)
      | cons t rs =>
        have h1 : Balanced 1 _ := hbody 1 _ hR
        simp only [launchEvs, List.singleton_append]
        exact balanced_cons_launch (i + 1) t.prefetchOk _ h1
    simp only [traceAux, iterEvs, List.append_assoc]
    cases first with
    | true =>
      rw [if_pos rfl, if_pos rfl, List.nil_append]
      exact hsync 0 _ hmid
    | false =>
      have hf : ¬((false : Bool) = true) := by simp
      rw [if_neg hf, if_neg hf, List.singleton_append]
      exact balanced_cons_getQ i s.prefetchOk _ (hsync 0 _ hmid)

/-- C9: along every prefix of the event trace of the shard loop, at most one
background fetch is outstanding (every queue read is matched by an earlier
launch, and at most one launch is unmatched), and at most two shard contents
are resident on local disk (the shard being consumed and the one being
prefetched), crediting a background download from the moment of its
launch. -/
theorem C9_one_prefetch_two_resident (shards : List (ShardCfg ρ)) (k : Nat) :
    (List.countP isGetQ ((traceOf shards).take k) ≤
        List.countP isLaunch ((traceOf shards).take k) ∧
      List.countP isLaunch ((traceOf shards).take k) ≤
        List.countP isGetQ ((traceOf shards).take k) + 1) ∧
    (residentAfter ∅ ((traceOf shards).take k)).card ≤ 2 := by
  have hb := balanced_traceAux shards true 0 k
  simp only [if_true, Nat.zero_add] at hb
  have hr := resident_bound_aux shards true 0 ∅ (Finset.empty_subset _) k
  exact ⟨⟨by simpa [traceOf] using hb.1, by simpa [traceOf] using hb.2⟩,
    by simpa [traceOf] using hr⟩

/-! Facts about the catalog resolver. -/

theorem strLe_total (a : List Char) : ∀ b, strLe a b = true ∨ strLe b a = true := by
  induction a with
  | nil => intro b; left; rfl
  | cons x xs ih =>
    intro b
    cases b with
    | nil => right; rfl
    | cons y ys =>
      simp only [strLe]
      by_cases hxy : x = y
      · subst hxy
        rw [if_pos rfl, if_pos rfl]
        exact ih ys
      · rw [if_neg hxy, if_neg (Ne.symm hxy)]
        rcases lt_or_gt_of_ne hxy with h | h
        · left; simpa using h
        · right; simpa using h

theorem strLe_trans (a : List Char) :
    ∀ b c, strLe a b = true → strLe b c = true → strLe a c = true := by
  induction a with
  | nil => intro b c _ _; rfl
  | cons x xs ih =>
    intro b c h1 h2
    cases b with
    | nil => simp [strLe] at h1
    | cons y ys =>
      cases c with
      | nil => simp [strLe] at h2
      | cons z zs =>
        simp only [strLe] at h1 h2 ⊢
        by_cases hxy : x = y
        · subst hxy
          rw [if_pos rfl] at h1
          by_cases hyz : x = z
          · subst hyz
            rw [if_pos rfl] at h2
            rw [if_pos rfl]
            exact ih ys zs h1 h2
          · rw [if_neg hyz] at h2
            rw [if_neg hyz]
            exact h2
        · rw [if_neg hxy] at h1
          have hlt1 : x < y := by simpa using h1
          by_cases hyz : y = z
          · subst hyz
            rw [if_neg hxy]
            simpa using hlt1
          · rw [if_neg hyz] at h2
            have hlt2 : y < z := by simpa using h2
            have hlt : x < z := lt_trans hlt1 hlt2
            rw [if_neg (ne_of_lt hlt)]
            simpa using hlt

theorem mem_insertSorted (a x : List Char) (l : List (List Char)) :
    a ∈ insertSorted x l ↔ a = x ∨ a ∈ l := by
  induction l with
  | nil => simp [insertSorted]
  | cons b bs ih =>
    simp only [insertSorted]
    split_ifs
    · simp only [List.mem_cons]
    · simp only [List.mem_cons, ih]
      tauto

theorem mem_sortStrs (l : List (List Char)) (a : List Char) :
    a ∈ sortStrs l ↔ a ∈ l := by
  induction l with
  | nil => simp [sortStrs]
  | cons x xs ih =>
    simp only [sortStrs, List.foldr_cons] at ih ⊢
    rw [mem_insertSorted]
    simp [ih]

theorem pairwise_insertSorted (x : List Char) (l : List (List Char))
    (h : List.Pairwise (fun a b => strLe a b = true) l) :
    List.Pairwise (fun a b => strLe a b = true) (insertSorted x l) := by
  induction l with
  | nil => simp [insertSorted]
  | cons b bs ih =>
    rcases List.pairwise_cons.mp h with ⟨hb, hbs⟩
    simp only [insertSorted]
    split_ifs with hle
    · refine List.pairwise_cons.mpr ⟨?_, h⟩
      intro y hy
      rcases List.mem_cons.mp hy with hy | hy
      · exact hy ▸ hle
      · exact strLe_trans x b y hle (hb y hy)
    · have hbx : strLe b x = true := by
        rcases strLe_total x b with hx | hx
        · exact absurd hx hle
        · exact hx
      refine List.pairwise_cons.mpr ⟨?_, ih hbs⟩
      intro y hy
      rcases (mem_insertSorted y x bs).mp hy with hy | hy
      · exact hy ▸ hbx
      · exact hb y hy

theorem sortStrs_pairwise (l : List (List Char)) :
    List.Pairwise (fun a b => strLe a b = true) (sortStrs l) := by
  induction l with
  | nil => simp [sortStrs]
  | cons x xs ih =>
    simp only [sortStrs, List.foldr_cons] at ih ⊢
    exact pairwise_insertSorted x _ ih

/-- C10: the catalog resolver returns exactly the files ending in ".parquet"
whose path starts with "en/", "de/" or "fr/", every other file silently
excluded; the result is the sorted "en/" files, then the sorted "de/" files,
then the sorted "fr/" files, each block sorted lexicographically by code
point, a grouped order rather than one global sort (on the sample listing
the "en/" file precedes the lexicographically smaller "de/" file); and the
result is a function of the listing alone, so two calls over the same
listing return the identical sequence. -/
theorem C10_list_files_grouped (L : List (List Char)) (f : List Char) :
    (f ∈ list_files L ↔
      f ∈ L ∧ ".parquet".toList.isSuffixOf f = true ∧
        ("en/".toList.isPrefixOf f = true ∨ "de/".toList.isPrefixOf f = true ∨
          "fr/".toList.isPrefixOf f = true)) ∧
    list_files L =
      sortStrs ((L.filter (fun g => ".parquet".toList.isSuffixOf g)).filter
          (fun g => "en/".toList.isPrefixOf g)) ++
        (sortStrs ((L.filter (fun g => ".parquet".toList.isSuffixOf g)).filter
            (fun g => "de/".toList.isPrefixOf g)) ++
          sortStrs ((L.filter (fun g => ".parquet".toList.isSuffixOf g)).filter
            (fun g => "fr/".toList.isPrefixOf g))) ∧
    (∀ M : List (List Char),
      List.Pairwise (fun a b => strLe a b = true) (sortStrs M)) ∧
    list_files L = list_files L ∧
    list_files ["de/a.parquet".toList, "en/b.parquet".toList, "README.md".toList,
        "en/c.txt".toList, "fr/".toList ++ "d.parquet".toList] =
      ["en/b.parquet".toList, "de/a.parquet".toList,
        "fr/".toList ++ "d.parquet".toList] := by
  refine ⟨?_, ?_, fun M => sortStrs_pairwise M, rfl, by decide⟩
  · simp only [list_files, List.mem_append, mem_sortStrs, List.mem_filter]
    tauto
  · simp [list_files]

end HfStream
